import Mathlib

set_option maxRecDepth 8192

/-!
Verification of the jinja2 masking tool (`src/jinja2_mask.py`).

The source text is modelled as `List Char` (Python `str`), byte strings as
`List Nat` with every element below 256 (Python `bytes`).  Python exceptions
are modelled with `Except`; functions that the source writes with unbounded
loops are written with an explicit fuel argument that provably suffices.
-/

namespace J2Mask

/-- Whitespace set of Python `str.isspace` / `re` `\s` for text patterns
(ASCII whitespace, the C1 separators and the Unicode space characters). -/
def pyIsSpace (c : Char) : Bool :=
  let n := c.toNat
  (0x09 ≤ n && n ≤ 0x0D) || n == 0x20 || (0x1C ≤ n && n ≤ 0x1F) ||
  n == 0x85 || n == 0xA0 || n == 0x1680 || (0x2000 ≤ n && n ≤ 0x200A) ||
  n == 0x2028 || n == 0x2029 || n == 0x202F || n == 0x205F || n == 0x3000

/-- Python `str.lower`, restricted to ASCII letters (the scanner only
compares the lowered text against the ASCII words "raw" / "endraw"). -/
def pyLower (s : List Char) : List Char :=
  s.map (fun c => if 'A' ≤ c && c ≤ 'Z' then Char.ofNat (c.toNat + 32) else c)

/-- Python `str.strip()`: remove leading and trailing whitespace. -/
def pyStrip (s : List Char) : List Char :=
  ((s.dropWhile pyIsSpace).reverse.dropWhile pyIsSpace).reverse

/-- Python `line.rstrip("\r\n")`. -/
def rstripCrLf (l : List Char) : List Char :=
  (l.reverse.dropWhile (fun c => c = '\r' || c = '\n')).reverse

/-- Leftmost occurrence of `pat` in `s`, searching from relative index `i`
of the current suffix (helper for `strFind`). -/
def strFindAux (pat : List Char) : List Char → Nat → Option Nat
  | [], i => if pat.isEmpty then some i else none
  | l@(_ :: rest), i => if pat.isPrefixOf l then some i else strFindAux pat rest (i + 1)

/-- Python `s.find(pat, start)` (absolute index, `none` for -1). -/
def strFind (s pat : List Char) (start : Nat) : Option Nat :=
  (strFindAux pat (s.drop start) 0).map (· + start)

/-- Index of the last occurrence of `c` among the first `stop` characters
(helper for Python `s.rfind(c, 0, stop)`). -/
def rfindCharAux (c : Char) : List Char → Nat → Option Nat → Option Nat
  | [], _, acc => acc
  | d :: rest, i, acc => rfindCharAux c rest (i + 1) (if d = c then some i else acc)

/-- `last_line_start`: start index of the line containing position `i`. -/
def last_line_start (s : List Char) (i : Nat) : Nat :=
  match rfindCharAux '\n' (s.take i) 0 none with
  | none => 0
  | some j => j + 1

/-- `next_line_end`: position of the next newline at or after `i` together
with a flag telling whether one was found. -/
def next_line_end (s : List Char) (i : Nat) : Nat × Bool :=
  if s.length ≤ i then (s.length, false)
  else match strFind s ['\n'] i with
    | none => (s.length, false)
    | some j => (j, true)

/-- `leading_indent`: maximal prefix of spaces and tabs of a line. -/
def leading_indent : List Char → List Char
  | [] => []
  | c :: rest => if c = ' ' || c = '\t' then c :: leading_indent rest else []

/-- Python slice `s[a:b]` for `0 ≤ a` and `0 ≤ b`. -/
def extractS (s : List Char) (a b : Nat) : List Char := (s.take b).drop a

/-- Decimal digits of `n` (helper with explicit fuel; `fuel > n` suffices). -/
def natDecimalAux : Nat → Nat → List Char
  | 0, _ => []
  | fuel + 1, n =>
    if n < 10 then [Char.ofNat (48 + n)]
    else natDecimalAux fuel (n / 10) ++ [Char.ofNat (48 + n % 10)]

/-- Decimal representation of a natural number, as Python `str(n)`. -/
def natDecimal (n : Nat) : List Char := natDecimalAux (n + 1) n

/-- Python `int(ds)` on a string of ASCII decimal digits. -/
def natOfDigits (ds : List Char) : Nat :=
  ds.foldl (fun a c => a * 10 + (c.toNat - 48)) 0

/-! ### Placeholder codec -/

/-- Errors raised by the codec (`ValueError` / `UnicodeDecodeError`). -/
inductive CodecErr
  | b26OddLength
  | b26BadLetter
  | b26ByteRange
  | fromhexError
  | lengthMismatch (declared actual : Nat)
  | utf8Invalid
  deriving DecidableEq

/-- `encode_b26`: each byte `b` becomes the two uppercase letters
`chr(65 + b / 26)` and `chr(65 + b % 26)`. -/
def encode_b26 : List Nat → List Char
  | [] => []
  | b :: rest => Char.ofNat (65 + b / 26) :: Char.ofNat (65 + b % 26) :: encode_b26 rest

/-- The pair loop of `decode_b26`: `hi = ord(c1) - 65`, `lo = ord(c2) - 65`
(as Python ints, so possibly negative), the `0 <= hi < 26 and 0 <= lo < 26`
check, and the `bytearray` store whose range check rejects values
outside `0..255`. -/
def decodeB26Pairs : List Char → Except CodecErr (List Nat)
  | [] => .ok []
  | c1 :: c2 :: rest =>
    let hi : Int := (c1.toNat : Int) - 65
    let lo : Int := (c2.toNat : Int) - 65
    if 0 ≤ hi ∧ hi < 26 ∧ 0 ≤ lo ∧ lo < 26 then
      let v : Int := hi * 26 + lo
      if 0 ≤ v ∧ v < 256 then
        (decodeB26Pairs rest).map (fun l => v.toNat :: l)
      else .error .b26ByteRange
    else .error .b26BadLetter
  | [_] => .error .b26OddLength

/-- `decode_b26`: parity check, then the pair loop. -/
def decode_b26 (text : List Char) : Except CodecErr (List Nat) :=
  if text.length % 2 = 1 then .error .b26OddLength
  else decodeB26Pairs text

/-- Lowercase hex digit for a value below 16, as produced by `bytes.hex()`. -/
def hexDigitChar (n : Nat) : Char :=
  if n < 10 then Char.ofNat (48 + n) else Char.ofNat (87 + n)

/-- Python `bytes.hex()`: two lowercase hex digits per byte. -/
def bytesHex : List Nat → List Char
  | [] => []
  | b :: rest => hexDigitChar (b / 16) :: hexDigitChar (b % 16) :: bytesHex rest

/-- Value of one hex digit, upper or lower case. -/
def hexVal (c : Char) : Option Nat :=
  if '0' ≤ c && c ≤ '9' then some (c.toNat - 48)
  else if 'a' ≤ c && c ≤ 'f' then some (c.toNat - 87)
  else if 'A' ≤ c && c ≤ 'F' then some (c.toNat - 55)
  else none

/-- Python `bytes.fromhex`: pairs of hex digits, spaces allowed between
pairs, `ValueError` on a lone digit or a non-hex character. -/
def bytesFromHexList : List Char → Except CodecErr (List Nat)
  | [] => .ok []
  | c :: rest =>
    if c = ' ' then bytesFromHexList rest
    else match hexVal c with
      | none => .error .fromhexError
      | some h =>
        match rest with
        | [] => .error .fromhexError
        | c2 :: rest2 =>
          match hexVal c2 with
          | none => .error .fromhexError
          | some lo => (bytesFromHexList rest2).map (fun l => (h * 16 + lo) :: l)

/-- UTF-8 bytes of one unicode scalar value (Python `str.encode("utf-8")`
acting on one character). -/
def utf8EncodeChar (c : Char) : List Nat :=
  let n := c.toNat
  if n < 0x80 then [n]
  else if n < 0x800 then [0xC0 + n / 64, 0x80 + n % 64]
  else if n < 0x10000 then [0xE0 + n / 4096, 0x80 + (n / 64) % 64, 0x80 + n % 64]
  else [0xF0 + n / 262144, 0x80 + (n / 4096) % 64, 0x80 + (n / 64) % 64, 0x80 + n % 64]

/-- Python `str.encode("utf-8")`. -/
def utf8Encode : List Char → List Nat
  | [] => []
  | c :: rest => utf8EncodeChar c ++ utf8Encode rest

/-- Python `bytes.decode("utf-8")` (strict): rejects truncated sequences,
continuation-byte errors, overlong forms, surrogates and values above
U+10FFFF, exactly like `UnicodeDecodeError`. -/
def utf8Decode : List Nat → Except CodecErr (List Char)
  | [] => .ok []
  | b1 :: rest =>
    if b1 < 0x80 then (utf8Decode rest).map (fun l => Char.ofNat b1 :: l)
    else if b1 < 0xC2 then .error .utf8Invalid
    else if b1 < 0xE0 then
      match rest with
      | b2 :: rest2 =>
        if 0x80 ≤ b2 && b2 < 0xC0 then
          (utf8Decode rest2).map (fun l => Char.ofNat ((b1 - 0xC0) * 64 + (b2 - 0x80)) :: l)
        else .error .utf8Invalid
      | [] => .error .utf8Invalid
    else if b1 < 0xF0 then
      match rest with
      | b2 :: b3 :: rest3 =>
        let lo2 := if b1 = 0xE0 then 0xA0 else 0x80
        let hi2 := if b1 = 0xED then 0xA0 else 0xC0
        if lo2 ≤ b2 && b2 < hi2 && 0x80 ≤ b3 && b3 < 0xC0 then
          (utf8Decode rest3).map
            (fun l => Char.ofNat ((b1 - 0xE0) * 4096 + (b2 - 0x80) * 64 + (b3 - 0x80)) :: l)
        else .error .utf8Invalid
      | _ => .error .utf8Invalid
    else if b1 < 0xF5 then
      match rest with
      | b2 :: b3 :: b4 :: rest4 =>
        let lo2 := if b1 = 0xF0 then 0x90 else 0x80
        let hi2 := if b1 = 0xF4 then 0x90 else 0xC0
        if lo2 ≤ b2 && b2 < hi2 && 0x80 ≤ b3 && b3 < 0xC0 && 0x80 ≤ b4 && b4 < 0xC0 then
          (utf8Decode rest4).map
            (fun l =>
              Char.ofNat ((b1 - 0xF0) * 262144 + (b2 - 0x80) * 4096 +
                (b3 - 0x80) * 64 + (b4 - 0x80)) :: l)
        else .error .utf8Invalid
      | _ => .error .utf8Invalid
    else .error .utf8Invalid

/-- `encode_placeholder`: hex scheme `__J2OMIT_<K>_<LEN>_<hex>__`,
Base26 scheme `__J2<K>_B26:<letters>__`. -/
def encode_placeholder (kind : Char) (snippet : List Char) (useB26 : Bool) : List Char :=
  let raw := utf8Encode snippet
  if useB26 then
    "__J2".toList ++ [kind] ++ "_B26:".toList ++ encode_b26 raw ++ "__".toList
  else
    "__J2OMIT_".toList ++ [kind] ++ "_".toList ++ natDecimal raw.length ++
      "_".toList ++ bytesHex raw ++ "__".toList

/-- `decode_placeholder_hex`: `bytes.fromhex`, the declared-length check,
then `raw.decode("utf-8")`.  The `kind` group is ignored, as in the source. -/
def decode_placeholder_hex (_kind : Char) (lengthStr hexStr : List Char) :
    Except CodecErr (List Char) :=
  match bytesFromHexList hexStr with
  | .error e => .error e
  | .ok raw =>
    if natOfDigits lengthStr ≠ raw.length then
      .error (.lengthMismatch (natOfDigits lengthStr) raw.length)
    else utf8Decode raw

/-- `decode_placeholder_b26`: `decode_b26` then `raw.decode("utf-8")`. -/
def decode_placeholder_b26 (_kind : Char) (b26Str : List Char) :
    Except CodecErr (List Char) :=
  match decode_b26 b26Str with
  | .error e => .error e
  | .ok raw => utf8Decode raw

/-! ### Backslash guard -/

/-- Inner scan of the literal grammar `"(?:[^"\]|\\.)*"` starting just
after an opening quote: number of characters up to and including the
closing quote, `none` when the attempt fails.  `[^"\]` matches a newline,
`\\.` does not consume one. -/
def scanDq : List Char → Option Nat
  | [] => none
  | '"' :: _ => some 1
  | '\\' :: d :: rest => if d = '\n' then none else (scanDq rest).map (· + 2)
  | ['\\'] => none
  | _ :: rest => (scanDq rest).map (· + 1)

/-- One pass of `BACKSLASH_STR.sub(protect_bs, s)`: at each position try
the literal grammar; a matched literal containing a backslash becomes a
kind-B placeholder, any other character is copied.  Fuel above the length
of the text suffices since a match consumes at least two characters. -/
def protectBsAux (useB26 : Bool) : Nat → List Char → List Char
  | 0, l => l
  | _ + 1, [] => []
  | fuel + 1, c :: rest =>
    if c = '"' then
      match scanDq rest with
      | some k =>
        let lit := '"' :: rest.take k
        let repl := if lit.contains '\\' then encode_placeholder 'B' lit useB26 else lit
        repl ++ protectBsAux useB26 fuel (rest.drop k)
      | none => c :: protectBsAux useB26 fuel rest
    else c :: protectBsAux useB26 fuel rest

/-- The `protect_backslash` pre-pass of `mask_text`. -/
def protectBackslashStrings (useB26 : Bool) (s : List Char) : List Char :=
  protectBsAux useB26 (s.length + 1) s

/-! ### Tag scanner -/

/-- The four tag kinds the scanner recognizes. -/
inductive TagT
  | expr
  | stmt
  | comm
  | ruby
  deriving DecidableEq

/-- Errors raised by `mask_text`. -/
inductive MaskErr
  | inlineConflict (line : List Char)
  deriving DecidableEq

/-- One update of the selection loop `if idx != -1 and (min_pos == -1 or
idx < min_pos)`. -/
def pickStep (acc : Option (Nat × TagT)) (p : Option Nat × TagT) : Option (Nat × TagT) :=
  match p.1, acc with
  | none, _ => acc
  | some i, none => some (i, p.2)
  | some i, some (m, t) => if i < m then some (i, p.2) else some (m, t)

/-- Selection of the leftmost candidate, in the order the source lists
them (expression, statement, comment, foreign interpolation). -/
def pickNearest (cands : List (Option Nat × TagT)) : Option (Nat × TagT) :=
  cands.foldl pickStep none

/-- The opener searches of one loop iteration: the four `s.find` calls,
the raw-mode overrides (`{%` is never suppressed), and the selection of
the leftmost opener. -/
def chooseTag (s : List Char) (pos : Nat) (insideRaw : Bool) : Option (Nat × TagT) :=
  let idxExpr := strFind s "\x7b\x7b".toList pos
  let idxStmt := strFind s "\x7b%".toList pos
  let idxComm := strFind s "\x7b#".toList pos
  let idxRuby := strFind s "#\x7b".toList pos
  let idxExpr := if insideRaw then none else idxExpr
  let idxComm := if insideRaw then none else idxComm
  let idxRuby := if insideRaw then none else idxRuby
  pickNearest [(idxExpr, .expr), (idxStmt, .stmt), (idxComm, .comm), (idxRuby, .ruby)]

/-- Closing delimiter searched for each opener. -/
def closerOf : TagT → List Char
  | .expr => "\x7d\x7d".toList
  | .stmt => "%\x7d".toList
  | .comm => "#\x7d".toList
  | .ruby => "\x7d".toList

/-- Result of one iteration of the scanner loop. -/
inductive StepRes
  | done (emit : List Char)
  | fail (e : MaskErr)
  | cont (emit : List Char) (pos : Nat) (insideRaw : Bool)
  deriving DecidableEq

/-- The raw / endraw toggle applied after a statement tag, on the
stripped and lowered inner text. -/
def rawUpdate (insideRaw : Bool) (inner : List Char) : Bool :=
  if insideRaw then
    if "endraw".toList.isPrefixOf inner then false else insideRaw
  else
    if inner = "raw".toList || "raw ".toList.isPrefixOf inner then true else insideRaw

/-- Expression branch: replace the tag span `s[min_pos:end+2]` in place. -/
def stepExpr (s : List Char) (useB26 : Bool) (pos minPos : Nat) (insideRaw : Bool) : StepRes :=
  match strFind s "\x7d\x7d".toList (minPos + 2) with
  | none => .done (s.drop pos)
  | some e =>
    .cont (extractS s pos minPos ++ encode_placeholder 'E' (extractS s minPos (e + 2)) useB26)
      (e + 2) insideRaw

/-- Foreign interpolation branch: closer is the first single brace. -/
def stepRuby (s : List Char) (useB26 : Bool) (pos minPos : Nat) (insideRaw : Bool) : StepRes :=
  match strFind s "\x7d".toList (minPos + 2) with
  | none => .done (s.drop pos)
  | some e =>
    .cont (extractS s pos minPos ++ encode_placeholder 'R' (extractS s minPos (e + 1)) useB26)
      (e + 1) insideRaw

/-- Statement branch: inline-conflict check, full-line replacement by
`indent + "# " + token`, and the raw toggle. -/
def stepStmt (s : List Char) (useB26 allowInline : Bool) (pos minPos : Nat)
    (insideRaw : Bool) : StepRes :=
  match strFind s "%\x7d".toList (minPos + 2) with
  | none => .done (s.drop pos)
  | some e =>
    let snippet := extractS s minPos (e + 2)
    let ls := last_line_start s minPos
    let le := (next_line_end s (e + 2)).1
    let hadNl := (next_line_end s (e + 2)).2
    let line := extractS s ls le
    let left := pyStrip (extractS s ls minPos)
    let right := pyStrip (extractS s (e + 2) le)
    if (!left.isEmpty || !right.isEmpty) && !allowInline then
      .fail (.inlineConflict (rstripCrLf line))
    else
      let indent := leading_indent line
      let inner := pyLower (pyStrip (extractS s (minPos + 2) e))
      .cont (extractS s pos ls ++ indent ++ "# ".toList ++
          encode_placeholder 'S' snippet useB26 ++ (if hadNl then ['\n'] else []))
        le (rawUpdate insideRaw inner)

/-- Comment branch: unconditional full-line replacement. -/
def stepComm (s : List Char) (useB26 : Bool) (pos minPos : Nat) (insideRaw : Bool) : StepRes :=
  match strFind s "#\x7d".toList (minPos + 2) with
  | none => .done (s.drop pos)
  | some e =>
    let snippet := extractS s minPos (e + 2)
    let ls := last_line_start s minPos
    let le := (next_line_end s (e + 2)).1
    let hadNl := (next_line_end s (e + 2)).2
    let line := extractS s ls le
    let indent := leading_indent line
    .cont (extractS s pos ls ++ indent ++ "# ".toList ++
        encode_placeholder 'C' snippet useB26 ++ (if hadNl then ['\n'] else []))
      le insideRaw

/-- One iteration of the `while pos < n` loop of `mask_text`. -/
def maskStep (s : List Char) (useB26 allowInline : Bool) (pos : Nat)
    (insideRaw : Bool) : StepRes :=
  match chooseTag s pos insideRaw with
  | none => .done (s.drop pos)
  | some (minPos, .expr) => stepExpr s useB26 pos minPos insideRaw
  | some (minPos, .ruby) => stepRuby s useB26 pos minPos insideRaw
  | some (minPos, .stmt) => stepStmt s useB26 allowInline pos minPos insideRaw
  | some (minPos, .comm) => stepComm s useB26 pos minPos insideRaw

/-- The scanner loop.  The cursor strictly advances on every continuing
iteration, so any fuel above `s.length - pos` gives the loop's value. -/
def maskAux (s : List Char) (useB26 allowInline : Bool) :
    Nat → Nat → Bool → Except MaskErr (List Char)
  | 0, _, _ => .ok []
  | fuel + 1, pos, insideRaw =>
    if pos < s.length then
      match maskStep s useB26 allowInline pos insideRaw with
      | .done emit => .ok emit
      | .fail e => .error e
      | .cont emit pos' raw' =>
        (maskAux s useB26 allowInline fuel pos' raw').map (fun t => emit ++ t)
    else .ok []

/-- `mask_text`: optional backslash pre-pass, then the scanner loop from
position 0 outside raw mode. -/
def mask_text (s : List Char) (useB26 allowInline protectBackslash : Bool) :
    Except MaskErr (List Char) :=
  let s := if protectBackslash then protectBackslashStrings useB26 s else s
  maskAux s useB26 allowInline (s.length + 1) 0 false

/-! ### Unmask -/

def isAsciiDigit (c : Char) : Bool := '0' ≤ c && c ≤ '9'

def isHexDigitChar (c : Char) : Bool :=
  ('0' ≤ c && c ≤ '9') || ('a' ≤ c && c ≤ 'f') || ('A' ≤ c && c ≤ 'F')

def isUpperAZ (c : Char) : Bool := 'A' ≤ c && c ≤ 'Z'

/-- The `[ESCRB]` kind-letter class. -/
def isKindLetter (c : Char) : Bool :=
  c = 'E' || c = 'S' || c = 'C' || c = 'R' || c = 'B'

/-- Maximal nonempty run of characters satisfying `p` (the greedy `X+`
of the token patterns; the character after the run can never restart the
following literal underscore, so maximal munch equals the regex). -/
def span1 (p : Char → Bool) (l : List Char) : Option (List Char × List Char) :=
  let run := l.takeWhile p
  if run.isEmpty then none else some (run, l.dropWhile p)

/-- Drop `pat` from the head of `l` if it is there. -/
def stripHead (pat l : List Char) : Option (List Char) :=
  if pat.isPrefixOf l then some (l.drop pat.length) else none

/-- Anchored match of `PH_RE_HEX` = `__J2OMIT_([ESCRB])_(\d+)_([0-9a-fA-F]+)__`,
returning kind, length digits, hex digits and the total matched length. -/
def matchHexTok (l : List Char) : Option (Char × List Char × List Char × Nat) :=
  match stripHead "__J2OMIT_".toList l with
  | none => none
  | some l1 =>
    match l1 with
    | k :: l2 =>
      if isKindLetter k then
        match l2 with
        | '_' :: l3 =>
          match span1 isAsciiDigit l3 with
          | none => none
          | some (ds, l4) =>
            match l4 with
            | '_' :: l5 =>
              match span1 isHexDigitChar l5 with
              | none => none
              | some (hs, l6) =>
                if "__".toList.isPrefixOf l6 then
                  some (k, ds, hs, 9 + 1 + 1 + ds.length + 1 + hs.length + 2)
                else none
            | _ => none
        | _ => none
      else none
    | [] => none

/-- Anchored match of `PH_RE_B26` = `__J2([ESCRB])_B26:([A-Z]+)__`,
returning kind, letters and the total matched length. -/
def matchB26Tok (l : List Char) : Option (Char × List Char × Nat) :=
  match stripHead "__J2".toList l with
  | none => none
  | some l1 =>
    match l1 with
    | k :: l2 =>
      if isKindLetter k then
        match stripHead "_B26:".toList l2 with
        | none => none
        | some l3 =>
          match span1 isUpperAZ l3 with
          | none => none
          | some (bs, l4) =>
            if "__".toList.isPrefixOf l4 then
              some (k, bs, 4 + 1 + 5 + bs.length + 2)
            else none
      else none
    | [] => none

/-- Diagnostics are the token texts reported on stderr. -/
abbrev Warn := List Char

/-- `repl_hex`: decode, and on failure either re-raise (strict) or keep
the token and emit a diagnostic. -/
def replHex (strict : Bool) (k : Char) (ds hs tok : List Char) :
    Except CodecErr (List Char × List Warn) :=
  match decode_placeholder_hex k ds hs with
  | .ok t => .ok (t, [])
  | .error e => if strict then .error e else .ok (tok, [tok])

/-- `repl_b26`: decode, and on failure either re-raise or keep the token. -/
def replB26 (strict : Bool) (k : Char) (bs tok : List Char) :
    Except CodecErr (List Char × List Warn) :=
  match decode_placeholder_b26 k bs with
  | .ok t => .ok (t, [])
  | .error e => if strict then .error e else .ok (tok, [tok])

/-- `PH_RE_HEX.sub(repl_hex, line)`: scan left to right, attempt the
anchored token match at each position, replace non-overlapping matches. -/
def subHexAux (strict : Bool) : Nat → List Char → Except CodecErr (List Char × List Warn)
  | _, [] => .ok ([], [])
  | 0, l => .ok (l, [])
  | fuel + 1, l@(c :: rest) =>
    match matchHexTok l with
    | some (k, ds, hs, len) =>
      match replHex strict k ds hs (l.take len) with
      | .error e => .error e
      | .ok (rep, w1) =>
        match subHexAux strict fuel (l.drop len) with
        | .error e => .error e
        | .ok (t, w2) => .ok (rep ++ t, w1 ++ w2)
    | none =>
      match subHexAux strict fuel rest with
      | .error e => .error e
      | .ok (t, w) => .ok (c :: t, w)

/-- `PH_RE_B26.sub(repl_b26, line)`. -/
def subB26Aux (strict : Bool) : Nat → List Char → Except CodecErr (List Char × List Warn)
  | _, [] => .ok ([], [])
  | 0, l => .ok (l, [])
  | fuel + 1, l@(c :: rest) =>
    match matchB26Tok l with
    | some (k, bs, len) =>
      match replB26 strict k bs (l.take len) with
      | .error e => .error e
      | .ok (rep, w1) =>
        match subB26Aux strict fuel (l.drop len) with
        | .error e => .error e
        | .ok (t, w2) => .ok (rep ++ t, w1 ++ w2)
    | none =>
      match subB26Aux strict fuel rest with
      | .error e => .error e
      | .ok (t, w) => .ok (c :: t, w)

/-- Whole-line pattern `^(\s*)#\s*(__J2OMIT_[ESCRB]_\d+_[0-9a-fA-F]+__)\s*$`,
merged with the always-successful `PH_RE_HEX.fullmatch` on the captured
token: returns indent, kind, length digits, hex digits, token text. -/
def fullLineHex (line : List Char) :
    Option (List Char × Char × List Char × List Char × List Char) :=
  let ws := line.takeWhile pyIsSpace
  match line.dropWhile pyIsSpace with
  | '#' :: r2 =>
    let r3 := r2.dropWhile pyIsSpace
    match matchHexTok r3 with
    | some (k, ds, hs, len) =>
      if (r3.drop len).all pyIsSpace then some (ws, k, ds, hs, r3.take len) else none
    | none => none
  | _ => none

/-- Whole-line pattern `^(\s*)#\s*(__J2[ESCRB]_B26:[A-Z]+__)\s*$`. -/
def fullLineB26 (line : List Char) :
    Option (List Char × Char × List Char × List Char) :=
  let ws := line.takeWhile pyIsSpace
  match line.dropWhile pyIsSpace with
  | '#' :: r2 =>
    let r3 := r2.dropWhile pyIsSpace
    match matchB26Tok r3 with
    | some (k, bs, len) =>
      if (r3.drop len).all pyIsSpace then some (ws, k, bs, r3.take len) else none
    | none => none
  | _ => none

/-- One line of the unmask loop: the two whole-line comment patterns
(emitting `indent + restored + "\n"`), else the two inline substitutions. -/
def processLine (strict : Bool) (line : List Char) :
    Except CodecErr (List Char × List Warn) :=
  match fullLineHex line with
  | some (ind, k, ds, hs, tok) =>
    match replHex strict k ds hs tok with
    | .error e => .error e
    | .ok (restored, w) => .ok (ind ++ restored ++ ['\n'], w)
  | none =>
    match fullLineB26 line with
    | some (ind, k, bs, tok) =>
      match replB26 strict k bs tok with
      | .error e => .error e
      | .ok (restored, w) => .ok (ind ++ restored ++ ['\n'], w)
    | none =>
      match subHexAux strict (line.length + 1) line with
      | .error e => .error e
      | .ok (l1, w1) =>
        match subB26Aux strict (l1.length + 1) l1 with
        | .error e => .error e
        | .ok (l2, w2) => .ok (l2, w1 ++ w2)

/-- Line-break characters of Python `str.splitlines`. -/
def isLineBreakChar (c : Char) : Bool :=
  c = '\n' || c = '\r' || c.toNat = 0x0B || c.toNat = 0x0C ||
  c.toNat = 0x1C || c.toNat = 0x1D || c.toNat = 0x1E || c.toNat = 0x85 ||
  c.toNat = 0x2028 || c.toNat = 0x2029

/-- Python `s.splitlines(keepends=True)` (`cur` holds the current line
reversed; `\r\n` counts as one terminator). -/
def splitLinesAux (cur : List Char) : List Char → List (List Char)
  | [] => if cur.isEmpty then [] else [cur.reverse]
  | '\r' :: '\n' :: rest => (cur.reverse ++ ['\r', '\n']) :: splitLinesAux [] rest
  | c :: rest =>
    if isLineBreakChar c then (cur.reverse ++ [c]) :: splitLinesAux [] rest
    else splitLinesAux (c :: cur) rest

/-- Python `s.splitlines(keepends=True)`. -/
def pySplitLines (s : List Char) : List (List Char) := splitLinesAux [] s

/-- The per-line fold of `unmask_text`. -/
def unmaskLines (strict : Bool) : List (List Char) → Except CodecErr (List Char × List Warn)
  | [] => .ok ([], [])
  | line :: rest =>
    match processLine strict line with
    | .error e => .error e
    | .ok (out, w1) =>
      match unmaskLines strict rest with
      | .error e => .error e
      | .ok (outs, w2) => .ok (out ++ outs, w1 ++ w2)

/-- `unmask_text`: restore placeholders line by line; the second
component collects the stderr diagnostics of non-strict mode. -/
def unmask_text (s : List Char) (strict : Bool) :
    Except CodecErr (List Char × List Warn) :=
  unmaskLines strict (pySplitLines s)

/-! ### Codec lemmas -/

theorem charOfNat_toNat_lt : ∀ n : Nat, n < 256 → (Char.ofNat n).toNat = n := by decide

theorem decodeB26Pairs_cons (b : Nat) (hb : b < 256) (rest : List Char) :
    decodeB26Pairs (Char.ofNat (65 + b / 26) :: Char.ofNat (65 + b % 26) :: rest)
      = (decodeB26Pairs rest).map (fun l => b :: l) := by
  have h1 : (Char.ofNat (65 + b / 26)).toNat = 65 + b / 26 :=
    charOfNat_toNat_lt _ (by omega)
  have h2 : (Char.ofNat (65 + b % 26)).toNat = 65 + b % 26 :=
    charOfNat_toNat_lt _ (by omega)
  simp only [decodeB26Pairs, h1, h2]
  split_ifs with hA hB
  · have hv : (((65 + b / 26 : Nat) : Int) - 65) * 26 + (((65 + b % 26 : Nat) : Int) - 65)
        = (b : Int) := by push_cast; omega
    rw [hv]
    simp
  · exact absurd ⟨by push_cast; omega, by push_cast; omega⟩ hB
  · exact absurd ⟨by push_cast; omega, by push_cast; omega,
      by push_cast; omega, by push_cast; omega⟩ hA

theorem encode_b26_length (data : List Nat) :
    (encode_b26 data).length = 2 * data.length := by
  induction data with
  | nil => rfl
  | cons b rest ih => simp [encode_b26, ih]; omega

theorem decodeB26Pairs_encode (data : List Nat) (h : ∀ b ∈ data, b < 256) :
    decodeB26Pairs (encode_b26 data) = .ok data := by
  induction data with
  | nil => rfl
  | cons b rest ih =>
    have hb : b < 256 := h b (by simp)
    rw [encode_b26, decodeB26Pairs_cons b hb, ih (fun x hx => h x (by simp [hx]))]
    rfl

theorem decode_b26_encode (data : List Nat) (h : ∀ b ∈ data, b < 256) :
    decode_b26 (encode_b26 data) = .ok data := by
  unfold decode_b26
  rw [encode_b26_length data, if_neg (by omega)]
  exact decodeB26Pairs_encode data h

theorem hexDigit_facts : ∀ m : Nat, m < 16 →
    hexVal (hexDigitChar m) = some m ∧ hexDigitChar m ≠ ' ' := by decide

theorem bytesFromHexList_cons (b : Nat) (hb : b < 256) (rest : List Char) :
    bytesFromHexList (hexDigitChar (b / 16) :: hexDigitChar (b % 16) :: rest)
      = (bytesFromHexList rest).map (fun l => b :: l) := by
  have hhi := hexDigit_facts (b / 16) (by omega)
  have hlo := hexDigit_facts (b % 16) (by omega)
  simp only [bytesFromHexList, if_neg hhi.2, hhi.1, hlo.1]
  have : b / 16 * 16 + b % 16 = b := by omega
  rw [this]

theorem bytesFromHexList_encode (data : List Nat) (h : ∀ b ∈ data, b < 256) :
    bytesFromHexList (bytesHex data) = .ok data := by
  induction data with
  | nil => rfl
  | cons b rest ih =>
    have hb : b < 256 := h b (by simp)
    rw [bytesHex, bytesFromHexList_cons b hb, ih (fun x hx => h x (by simp [hx]))]
    rfl

theorem foldl_natDecimalAux (fuel : Nat) : ∀ n acc, n < fuel →
    List.foldl (fun a c => a * 10 + (c.toNat - 48)) acc (natDecimalAux fuel n)
      = acc * 10 ^ (natDecimalAux fuel n).length + n := by
  induction fuel with
  | zero => intro n acc h; omega
  | succ fuel ih =>
    intro n acc h
    by_cases h10 : n < 10
    · simp [natDecimalAux, h10, charOfNat_toNat_lt (48 + n) (by omega)]
    · have hd : n / 10 < fuel := by omega
      simp only [natDecimalAux, if_neg h10, List.foldl_append, List.length_append,
        List.length_cons, List.length_nil, List.foldl_cons, List.foldl_nil]
      rw [ih (n / 10) acc hd]
      rw [charOfNat_toNat_lt (48 + n % 10) (by omega)]
      have e1 : (acc * 10 ^ (natDecimalAux fuel (n / 10)).length + n / 10) * 10 +
          (48 + n % 10 - 48)
          = acc * (10 ^ (natDecimalAux fuel (n / 10)).length * 10) +
            (n / 10 * 10 + n % 10) := by ring_nf; omega
      rw [e1, pow_succ]
      omega

theorem natOfDigits_natDecimal (n : Nat) : natOfDigits (natDecimal n) = n := by
  unfold natOfDigits natDecimal
  rw [foldl_natDecimalAux (n + 1) n 0 (by omega)]
  simp

/-- Claim C2: for every byte sequence `b` (empty, NUL bytes, newline
bytes, UTF-8 fragments included) and every kind letter, the Base26 codec
and the hex codec of the placeholder layer give `b` back: `decode_b26`
inverts `encode_b26`, `bytes.fromhex` inverts `bytes.hex`, the declared
decimal length written by the encoder re-parses to the byte count (so the
length check of the hex decoder passes), and both full decode functions
reduce to the final `bytes.decode("utf-8")` of exactly the bytes `b`. -/
theorem claim2_codec_roundtrip (kind : Char) (data : List Nat)
    (h : ∀ b ∈ data, b < 256) :
    decode_b26 (encode_b26 data) = .ok data ∧
    bytesFromHexList (bytesHex data) = .ok data ∧
    natOfDigits (natDecimal data.length) = data.length ∧
    decode_placeholder_hex kind (natDecimal data.length) (bytesHex data) = utf8Decode data ∧
    decode_placeholder_b26 kind (encode_b26 data) = utf8Decode data := by
  refine ⟨decode_b26_encode data h, bytesFromHexList_encode data h,
    natOfDigits_natDecimal data.length, ?_, ?_⟩
  · unfold decode_placeholder_hex
    rw [bytesFromHexList_encode data h]
    simp [natOfDigits_natDecimal]
  · unfold decode_placeholder_b26
    rw [decode_b26_encode data h]

/-- Concrete instance of C2 at kind `E` and bytes `[0, 255, 10, 104]`. -/
theorem claim2_codec_roundtrip_witness :
    (∀ b ∈ [0, 255, 10, 104], b < 256) ∧
    decode_b26 (encode_b26 [0, 255, 10, 104]) = .ok [0, 255, 10, 104] := by
  refine ⟨by decide, (claim2_codec_roundtrip 'E' [0, 255, 10, 104] (by decide)).1⟩

/-- Claim C7: on a decodable hex payload whose bytes also form valid
UTF-8, `decode_placeholder_hex` fails with the length-mismatch error
exactly when the recomputed byte count differs from the declared decimal
length, and returns the decoded payload when they agree. -/
theorem claim7_hex_length_check (kind : Char) (ds hs : List Char) (bs : List Nat)
    (t : List Char) (hhex : bytesFromHexList hs = .ok bs)
    (hutf : utf8Decode bs = .ok t) :
    decode_placeholder_hex kind ds hs =
      (if natOfDigits ds = bs.length then .ok t
       else .error (CodecErr.lengthMismatch (natOfDigits ds) bs.length)) := by
  unfold decode_placeholder_hex
  rw [hhex]
  by_cases hlen : natOfDigits ds = bs.length
  · simp [hlen, hutf]
  · simp [hlen]

/-- Concrete instance of C7: payload `61`, declared length 1 (match) and
declared length 2 (mismatch). -/
theorem claim7_hex_length_check_witness :
    bytesFromHexList "61".toList = .ok [97] ∧ utf8Decode [97] = .ok ['a'] ∧
    decode_placeholder_hex 'E' "1".toList "61".toList =
      (if natOfDigits "1".toList = List.length [97] then .ok ['a']
       else .error (CodecErr.lengthMismatch (natOfDigits "1".toList) (List.length [97]))) ∧
    decode_placeholder_hex 'E' "2".toList "61".toList =
      (if natOfDigits "2".toList = List.length [97] then .ok ['a']
       else .error (CodecErr.lengthMismatch (natOfDigits "2".toList) (List.length [97]))) :=
  ⟨rfl, rfl,
    claim7_hex_length_check 'E' "1".toList "61".toList [97] ['a'] rfl rfl,
    claim7_hex_length_check 'E' "2".toList "61".toList [97] ['a'] rfl rfl⟩

/-- High letter of the Base26 pair of any byte lies in `'A'..'J'`. -/
theorem encB26_hi_bound : ∀ b : Nat, b < 256 →
    'A' ≤ Char.ofNat (65 + b / 26) ∧ Char.ofNat (65 + b / 26) ≤ 'J' := by decide

/-- The pair loop rejects any all-uppercase pair list containing a pair
whose byte value would exceed 255: the failure is the `bytearray` range
error, never a successful return. -/
theorem decodeB26Pairs_bad_at : ∀ (i : Nat) (t : List Char),
    t.length % 2 = 0 → (∀ c ∈ t, 65 ≤ c.toNat ∧ c.toNat ≤ 90) →
    ∀ c1 c2, t.get? (2 * i) = some c1 → t.get? (2 * i + 1) = some c2 →
    256 ≤ (c1.toNat - 65) * 26 + (c2.toNat - 65) →
    decodeB26Pairs t = .error .b26ByteRange := by
  intro i
  induction i with
  | zero =>
    intro t ht hup c1 c2 h1 h2 hbad
    cases t with
    | nil => simp at h1
    | cons a t1 =>
      cases t1 with
      | nil => simp at h2
      | cons b t2 =>
        simp at h1 h2
        subst h1
        subst h2
        have ha := hup a (by simp)
        have hb := hup b (by simp)
        simp only [decodeB26Pairs]
        split_ifs with hA hB
        · exfalso
          rcases hB with ⟨_, hB2⟩
          have he : ((a.toNat : Int) - 65) * 26 + ((b.toNat : Int) - 65)
              = ((a.toNat - 65) * 26 + (b.toNat - 65) : Nat) := by push_cast; omega
          rw [he] at hB2
          omega
        · rfl
        · exact absurd ⟨by omega, by omega, by omega, by omega⟩ hA
  | succ i ih =>
    intro t ht hup c1 c2 h1 h2 hbad
    cases t with
    | nil => simp at h1
    | cons a t1 =>
      cases t1 with
      | nil => simp at ht
      | cons b t2 =>
        have ha := hup a (by simp)
        have hb := hup b (by simp)
        have ht2 : t2.length % 2 = 0 := by simp [List.length_cons] at ht; omega
        have h1' : t2.get? (2 * i) = some c1 := by
          have e2 : 2 * (i + 1) = 2 * i + 1 + 1 := by ring
          rw [e2, List.get?_cons_succ, List.get?_cons_succ] at h1
          exact h1
        have h2' : t2.get? (2 * i + 1) = some c2 := by
          have e2 : 2 * (i + 1) + 1 = 2 * i + 1 + 1 + 1 := by ring
          rw [e2, List.get?_cons_succ, List.get?_cons_succ] at h2
          exact h2
        simp only [decodeB26Pairs]
        split_ifs with hA hB
        · rw [ih t2 ht2 (fun c hc => hup c (by simp [hc])) c1 c2 h1' h2' hbad]
          rfl
        · rfl
        · exact absurd ⟨by omega, by omega, by omega, by omega⟩ hA

/-- Claim C10: the Base26 encoder writes the high letter `chr(65 + b / 26)`,
which always lies in `'A'..'J'`, so even positions of any encoded payload
never hold `'K'..'Z'`; conversely `decode_b26` errors (with the byte-range
failure of the `bytearray` store) on any even-length all-uppercase payload
containing a pair worth more than 255, such as `"ZZ"` or `"KA"`. -/
theorem claim10_b26_range :
    (∀ b : Nat, b < 256 →
      'A' ≤ Char.ofNat (65 + b / 26) ∧ Char.ofNat (65 + b / 26) ≤ 'J') ∧
    (∀ (data : List Nat), (∀ b ∈ data, b < 256) →
      ∀ i c, (encode_b26 data).get? (2 * i) = some c → 'A' ≤ c ∧ c ≤ 'J') ∧
    (∀ (t : List Char), t.length % 2 = 0 → (∀ c ∈ t, 65 ≤ c.toNat ∧ c.toNat ≤ 90) →
      (∃ i c1 c2, t.get? (2 * i) = some c1 ∧ t.get? (2 * i + 1) = some c2 ∧
        256 ≤ (c1.toNat - 65) * 26 + (c2.toNat - 65)) →
      decode_b26 t = .error .b26ByteRange) := by
  refine ⟨encB26_hi_bound, ?_, ?_⟩
  · intro data
    induction data with
    | nil => intro _ i c hc; simp [encode_b26] at hc
    | cons b rest ih =>
      intro h i c hc
      cases i with
      | zero =>
        simp [encode_b26] at hc
        subst hc
        exact encB26_hi_bound b (h b (by simp))
      | succ i =>
        have e2 : 2 * (i + 1) = 2 * i + 1 + 1 := by ring
        rw [encode_b26, e2, List.get?_cons_succ, List.get?_cons_succ] at hc
        exact ih (fun x hx => h x (by simp [hx])) i c hc
  · rintro t ht hup ⟨i, c1, c2, h1, h2, hbad⟩
    unfold decode_b26
    rw [if_neg (by omega)]
    exact decodeB26Pairs_bad_at i t ht hup c1 c2 h1 h2 hbad

/-- Concrete instance of C10: byte 255 encodes high letter `'J'`, and the
payload `"ZZ"` is rejected with the byte-range error. -/
theorem claim10_b26_range_witness :
    ('A' ≤ Char.ofNat (65 + 255 / 26) ∧ Char.ofNat (65 + 255 / 26) ≤ 'J') ∧
    decode_b26 "ZZ".toList = .error .b26ByteRange :=
  ⟨claim10_b26_range.1 255 (by decide),
    claim10_b26_range.2.2 "ZZ".toList (by decide) (by decide)
      ⟨0, 'Z', 'Z', by decide, by decide, by decide⟩⟩

/-! ### Scanner lemmas -/

theorem strFind_ge (s pat : List Char) (start j : Nat)
    (h : strFind s pat start = some j) : start ≤ j := by
  unfold strFind at h
  rcases Option.map_eq_some'.mp h with ⟨r, _, hr⟩
  omega

theorem pickStep_cases (acc : Option (Nat × TagT)) (p : Option Nat × TagT) :
    pickStep acc p = acc ∨ ∃ i, p.1 = some i ∧ pickStep acc p = some (i, p.2) := by
  rcases p with ⟨op, t⟩
  cases op with
  | none => left; rfl
  | some i =>
    cases acc with
    | none => right; exact ⟨i, rfl, rfl⟩
    | some mt =>
      rcases mt with ⟨m, t0⟩
      by_cases h : i < m
      · right; exact ⟨i, rfl, by simp [pickStep, h]⟩
      · left; simp [pickStep, h]

theorem pickFold_mem : ∀ (cands : List (Option Nat × TagT)) (acc : Option (Nat × TagT))
    (m : Nat) (t : TagT), List.foldl pickStep acc cands = some (m, t) →
    acc = some (m, t) ∨ ∃ p ∈ cands, p.1 = some m ∧ p.2 = t := by
  intro cands
  induction cands with
  | nil => intro acc m t h; left; exact h
  | cons p rest ih =>
    intro acc m t h
    rcases ih (pickStep acc p) m t h with h1 | ⟨q, hq, hq1, hq2⟩
    · rcases pickStep_cases acc p with hc | ⟨i, hi, hc⟩
      · left; rw [hc] at h1; exact h1
      · rw [hc] at h1
        have hpair : i = m ∧ p.2 = t := by
          have := Option.some_injective _ h1
          exact ⟨congrArg Prod.fst this, congrArg Prod.snd this⟩
        right
        exact ⟨p, by simp, hpair.1 ▸ hi, hpair.2⟩
    · right; exact ⟨q, List.mem_cons_of_mem _ hq, hq1, hq2⟩

theorem chooseTag_pos_le (s : List Char) (pos : Nat) (raw : Bool) (m : Nat) (t : TagT)
    (h : chooseTag s pos raw = some (m, t)) : pos ≤ m := by
  simp only [chooseTag, pickNearest] at h
  rcases pickFold_mem _ none m t h with h0 | ⟨p, hp, hp1, _⟩
  · exact Option.noConfusion h0
  · simp only [List.mem_cons, List.not_mem_nil, or_false] at hp
    rcases hp with rfl | rfl | rfl | rfl
    · cases raw with
      | true => exact Option.noConfusion hp1
      | false => exact strFind_ge _ _ _ _ hp1
    · exact strFind_ge _ _ _ _ hp1
    · cases raw with
      | true => exact Option.noConfusion hp1
      | false => exact strFind_ge _ _ _ _ hp1
    · cases raw with
      | true => exact Option.noConfusion hp1
      | false => exact strFind_ge _ _ _ _ hp1

theorem next_line_end_gt (s : List Char) (i pos : Nat) (h1 : pos < s.length)
    (h2 : pos < i) : pos < (next_line_end s i).1 := by
  unfold next_line_end
  split_ifs with hle
  · simpa using h1
  · cases hx : strFind s ['\n'] i with
    | none => simpa using h1
    | some j =>
      have := strFind_ge s ['\n'] i j hx
      simp only [hx]
      omega

theorem maskStep_progress (s : List Char) (u a : Bool) (pos : Nat) (raw : Bool)
    (hpos : pos < s.length) (e : List Char) (p' : Nat) (r' : Bool)
    (h : maskStep s u a pos raw = .cont e p' r') : pos < p' := by
  unfold maskStep at h
  cases hct : chooseTag s pos raw with
  | none => rw [hct] at h; simp at h
  | some mt =>
    rcases mt with ⟨m, tg⟩
    rw [hct] at h
    have hm := chooseTag_pos_le s pos raw m tg hct
    cases tg with
    | expr =>
      dsimp only at h
      unfold stepExpr at h
      cases hf : strFind s "\x7d\x7d".toList (m + 2) with
      | none => rw [hf] at h; dsimp only at h; simp at h
      | some e0 =>
        rw [hf] at h
        dsimp only at h
        have := strFind_ge _ _ _ _ hf
        simp only [StepRes.cont.injEq] at h
        omega
    | ruby =>
      dsimp only at h
      unfold stepRuby at h
      cases hf : strFind s "\x7d".toList (m + 2) with
      | none => rw [hf] at h; dsimp only at h; simp at h
      | some e0 =>
        rw [hf] at h
        dsimp only at h
        have := strFind_ge _ _ _ _ hf
        simp only [StepRes.cont.injEq] at h
        omega
    | stmt =>
      dsimp only at h
      unfold stepStmt at h
      cases hf : strFind s "%\x7d".toList (m + 2) with
      | none => rw [hf] at h; dsimp only at h; simp at h
      | some e0 =>
        rw [hf] at h
        dsimp only at h
        have he := strFind_ge _ _ _ _ hf
        have hle := next_line_end_gt s (e0 + 2) pos hpos (by omega)
        split_ifs at h <;> simp only [StepRes.cont.injEq] at h <;> omega
    | comm =>
      dsimp only at h
      unfold stepComm at h
      cases hf : strFind s "#\x7d".toList (m + 2) with
      | none => rw [hf] at h; dsimp only at h; simp at h
      | some e0 =>
        rw [hf] at h
        dsimp only at h
        have he := strFind_ge _ _ _ _ hf
        have hle := next_line_end_gt s (e0 + 2) pos hpos (by omega)
        simp only [StepRes.cont.injEq] at h
        omega

theorem maskAux_fuel_congr (s : List Char) (u a : Bool) :
    ∀ (f1 f2 pos : Nat) (raw : Bool), s.length - pos < f1 → s.length - pos < f2 →
      maskAux s u a f1 pos raw = maskAux s u a f2 pos raw := by
  intro f1
  induction f1 with
  | zero => intro f2 pos raw h1 _; omega
  | succ f1 ih =>
    intro f2 pos raw h1 h2
    cases f2 with
    | zero => omega
    | succ f2 =>
      by_cases hpos : pos < s.length
      · simp only [maskAux, if_pos hpos]
        cases hstep : maskStep s u a pos raw with
        | done e => rfl
        | fail e => rfl
        | cont e p' r' =>
          have hlt := maskStep_progress s u a pos raw hpos e p' r' hstep
          dsimp only
          rw [ih f2 p' r' (by omega) (by omega)]
      · simp only [maskAux, if_neg hpos]

/-- Claim C9: the scanner loop makes progress — whenever an iteration
continues it moves the cursor strictly forward, and consequently the loop
value does not depend on the fuel once the fuel exceeds the remaining
length, i.e. the scan of a finite text terminates. -/
theorem claim9_cursor_progress :
    (∀ (s : List Char) (u a : Bool) (pos : Nat) (raw : Bool) (e : List Char)
      (p' : Nat) (r' : Bool), pos < s.length →
      maskStep s u a pos raw = .cont e p' r' → pos < p') ∧
    (∀ (s : List Char) (u a : Bool) (f1 f2 pos : Nat) (raw : Bool),
      s.length - pos < f1 → s.length - pos < f2 →
      maskAux s u a f1 pos raw = maskAux s u a f2 pos raw) :=
  ⟨fun s u a pos raw e p' r' h1 h2 => maskStep_progress s u a pos raw h1 e p' r' h2,
   fun s u a f1 f2 pos raw h1 h2 => maskAux_fuel_congr s u a f1 f2 pos raw h1 h2⟩

/-- Concrete instance of C9: one expression step advances the cursor
from 0 to 5. -/
theorem claim9_cursor_progress_witness :
    (0 < "\x7b\x7bx\x7d\x7d".toList.length ∧
      maskStep "\x7b\x7bx\x7d\x7d".toList false true 0 false =
        .cont (encode_placeholder 'E' "\x7b\x7bx\x7d\x7d".toList false) 5 false) ∧
    (0 : Nat) < 5 :=
  ⟨⟨by decide, rfl⟩,
    claim9_cursor_progress.1 "\x7b\x7bx\x7d\x7d".toList false true 0 false
      (encode_placeholder 'E' "\x7b\x7bx\x7d\x7d".toList false) 5 false (by decide) rfl⟩

/-- Claim C5: when the chosen leftmost opener has no closer before the
end of the text, the step emits everything from the cursor to the end
verbatim and the whole loop returns it without error. -/
theorem claim5_unterminated_tag (s : List Char) (u a : Bool) (pos : Nat) (raw : Bool)
    (m : Nat) (t : TagT) (hpos : pos < s.length)
    (hct : chooseTag s pos raw = some (m, t))
    (hcl : strFind s (closerOf t) (m + 2) = none) :
    maskStep s u a pos raw = .done (s.drop pos) ∧
    ∀ fuel : Nat, maskAux s u a (fuel + 1) pos raw = .ok (s.drop pos) := by
  have hstep : maskStep s u a pos raw = .done (s.drop pos) := by
    unfold maskStep
    rw [hct]
    cases t with
    | expr => simp only [closerOf] at hcl; dsimp only; unfold stepExpr; rw [hcl]
    | stmt => simp only [closerOf] at hcl; dsimp only; unfold stepStmt; rw [hcl]
    | comm => simp only [closerOf] at hcl; dsimp only; unfold stepComm; rw [hcl]
    | ruby => simp only [closerOf] at hcl; dsimp only; unfold stepRuby; rw [hcl]
  refine ⟨hstep, fun fuel => ?_⟩
  simp only [maskAux, if_pos hpos, hstep]

/-- Concrete instance of C5: `x{{y` has an opener at 1 and no closer. -/
theorem claim5_unterminated_tag_witness :
    (0 < "x\x7b\x7by".toList.length ∧
      chooseTag "x\x7b\x7by".toList 0 false = some (1, TagT.expr) ∧
      strFind "x\x7b\x7by".toList (closerOf TagT.expr) 3 = none) ∧
    maskStep "x\x7b\x7by".toList false true 0 false = .done ("x\x7b\x7by".toList.drop 0) :=
  ⟨⟨by decide, rfl, rfl⟩,
    (claim5_unterminated_tag "x\x7b\x7by".toList false true 0 false 1 TagT.expr
      (by decide) rfl rfl).1⟩

/-- Claim C4: while the raw flag is set the scanner's opener selection
reduces to the statement search alone — Expression, Comment and
ForeignInterp openers are never chosen, while `\x7b%` is never suppressed;
the flag is a boolean, not a counter, so entering raw twice and exiting
once already exits; and on a raw block the statement tags themselves are
tokenized while the expression between them stays verbatim. -/
theorem claim4_raw_suppression :
    (∀ (s : List Char) (pos : Nat),
      chooseTag s pos true =
        (strFind s "\x7b%".toList pos).map (fun i => (i, TagT.stmt))) ∧
    rawUpdate (rawUpdate (rawUpdate false "raw".toList) "raw".toList)
      "endraw".toList = false ∧
    mask_text "\x7b% raw %\x7d\n\x7b\x7b x \x7d\x7d\n\x7b% endraw %\x7d\n\x7b\x7b y \x7d\x7d\n".toList
        false true true =
      .ok ("# __J2OMIT_S_9_7b252072617720257d__\n\n\x7b\x7b x \x7d\x7d\n# __J2OMIT_S_12_7b2520656e6472617720257d__\n\n__J2OMIT_E_7_7b7b2079207d7d__\n".toList) := by
  refine ⟨?_, rfl, rfl⟩
  intro s pos
  have key : chooseTag s pos true =
      (strFind s ['\x7b', '%'] pos).map (fun i => (i, TagT.stmt)) := by
    cases hx : strFind s ['\x7b', '%'] pos with
    | none => simp [chooseTag, pickNearest, pickStep, hx]
    | some i => simp [chooseTag, pickNearest, pickStep, hx]
  exact key

/-- Instance of C4's selection property at a concrete raw-mode position. -/
theorem claim4_raw_suppression_witness :
    chooseTag "\x7b\x7bx\x7d\x7d \x7b% e %\x7d".toList 0 true =
      (strFind "\x7b\x7bx\x7d\x7d \x7b% e %\x7d".toList "\x7b%".toList 0).map
        (fun i => (i, TagT.stmt)) :=
  claim4_raw_suppression.1 "\x7b\x7bx\x7d\x7d \x7b% e %\x7d".toList 0

/-- Claim C3: on `a \x7b% x %\x7d b` the statement tag shares its line with
`a` and `b`; with inline statements disallowed the mask fails with the
inline-conflict error carrying the line, with them allowed it succeeds
and the whole line becomes `# <token>` — the inline content does not
appear in the output.  Both schemes, both backslash-protect settings. -/
theorem claim3_inline_conflict : ∀ (u p : Bool),
    mask_text "a \x7b% x %\x7d b".toList u false p =
      .error (.inlineConflict "a \x7b% x %\x7d b".toList) ∧
    mask_text "a \x7b% x %\x7d b".toList u true p =
      .ok ("# ".toList ++ encode_placeholder 'S' "\x7b% x %\x7d".toList u) ∧
    'a' ∉ ("# ".toList ++ encode_placeholder 'S' "\x7b% x %\x7d".toList u) ∧
    ¬ (" b".toList <:+: ("# ".toList ++ encode_placeholder 'S' "\x7b% x %\x7d".toList u)) := by
  intro u p
  cases u <;> cases p <;> exact ⟨rfl, rfl, by decide, by decide⟩

/-- Instance of C3 at the hex scheme with the backslash guard enabled. -/
theorem claim3_inline_conflict_witness :
    mask_text "a \x7b% x %\x7d b".toList false false true =
      .error (.inlineConflict "a \x7b% x %\x7d b".toList) ∧
    mask_text "a \x7b% x %\x7d b".toList false true true =
      .ok ("# ".toList ++ encode_placeholder 'S' "\x7b% x %\x7d".toList false) ∧
    'a' ∉ ("# ".toList ++ encode_placeholder 'S' "\x7b% x %\x7d".toList false) ∧
    ¬ (" b".toList <:+:
        ("# ".toList ++ encode_placeholder 'S' "\x7b% x %\x7d".toList false)) :=
  claim3_inline_conflict false true

theorem leading_indent_eq_takeWhile (l : List Char) :
    leading_indent l = l.takeWhile (fun c => c = ' ' || c = '\t') := by
  induction l with
  | nil => rfl
  | cons c rest ih =>
    by_cases h : (c = ' ' || c = '\t') = true <;>
      simp [leading_indent, List.takeWhile_cons, h, ih]

/-- Claim C6 (amended): a Statement or Comment replacement emits the text
before the line, then the line's maximal run of spaces and tabs, then
`# `, then exactly one placeholder token, then a bare LF whenever the
line had a newline — the LF, not the original terminator: the CR of a
CRLF line is treated as line content and dropped
(see the counterexample). -/
theorem claim6_line_shape (s : List Char) (u a : Bool) (pos : Nat) (raw : Bool)
    (m e : Nat) :
    (chooseTag s pos raw = some (m, TagT.stmt) →
      strFind s "%\x7d".toList (m + 2) = some e →
      ((!(pyStrip (extractS s (last_line_start s m) m)).isEmpty ||
        !(pyStrip (extractS s (e + 2) (next_line_end s (e + 2)).1)).isEmpty) && !a) = false →
      maskStep s u a pos raw =
        .cont (extractS s pos (last_line_start s m) ++
            (extractS s (last_line_start s m) (next_line_end s (e + 2)).1).takeWhile
              (fun c => c = ' ' || c = '\t') ++
            '#' :: ' ' :: encode_placeholder 'S' (extractS s m (e + 2)) u ++
            (if (next_line_end s (e + 2)).2 then ['\n'] else []))
          (next_line_end s (e + 2)).1
          (rawUpdate raw (pyLower (pyStrip (extractS s (m + 2) e))))) ∧
    (chooseTag s pos raw = some (m, TagT.comm) →
      strFind s "#\x7d".toList (m + 2) = some e →
      maskStep s u a pos raw =
        .cont (extractS s pos (last_line_start s m) ++
            (extractS s (last_line_start s m) (next_line_end s (e + 2)).1).takeWhile
              (fun c => c = ' ' || c = '\t') ++
            '#' :: ' ' :: encode_placeholder 'C' (extractS s m (e + 2)) u ++
            (if (next_line_end s (e + 2)).2 then ['\n'] else []))
          (next_line_end s (e + 2)).1 raw) := by
  constructor
  · intro hct hcl hnc
    unfold maskStep
    rw [hct]
    dsimp only
    unfold stepStmt
    rw [hcl]
    dsimp only
    rw [if_neg (by rw [hnc]; exact Bool.false_ne_true)]
    rw [leading_indent_eq_takeWhile]
    have hh : ("# ".toList : List Char) = ['#', ' '] := rfl
    simp [hh, List.append_assoc]
  · intro hct hcl
    unfold maskStep
    rw [hct]
    dsimp only
    unfold stepComm
    rw [hcl]
    dsimp only
    rw [leading_indent_eq_takeWhile]
    have hh : ("# ".toList : List Char) = ['#', ' '] := rfl
    simp [hh, List.append_assoc]

/-- Instance of C6 on the indented statement line of `" \x7b% x %\x7d\nz"`. -/
theorem claim6_line_shape_witness :
    (chooseTag " \x7b% x %\x7d\nz".toList 0 false = some (1, TagT.stmt) ∧
      strFind " \x7b% x %\x7d\nz".toList "%\x7d".toList 3 = some 6 ∧
      ((!(pyStrip (extractS " \x7b% x %\x7d\nz".toList
            (last_line_start " \x7b% x %\x7d\nz".toList 1) 1)).isEmpty ||
        !(pyStrip (extractS " \x7b% x %\x7d\nz".toList 8
            (next_line_end " \x7b% x %\x7d\nz".toList 8).1)).isEmpty) && !true) = false) ∧
    maskStep " \x7b% x %\x7d\nz".toList false true 0 false =
      .cont (extractS " \x7b% x %\x7d\nz".toList 0
            (last_line_start " \x7b% x %\x7d\nz".toList 1) ++
          (extractS " \x7b% x %\x7d\nz".toList
              (last_line_start " \x7b% x %\x7d\nz".toList 1)
              (next_line_end " \x7b% x %\x7d\nz".toList 8).1).takeWhile
            (fun c => c = ' ' || c = '\t') ++
          '#' :: ' ' :: encode_placeholder 'S'
            (extractS " \x7b% x %\x7d\nz".toList 1 8) false ++
          (if (next_line_end " \x7b% x %\x7d\nz".toList 8).2 then ['\n'] else []))
        (next_line_end " \x7b% x %\x7d\nz".toList 8).1
        (rawUpdate false (pyLower (pyStrip (extractS " \x7b% x %\x7d\nz".toList 3 6)))) :=
  ⟨⟨rfl, rfl, rfl⟩,
    (claim6_line_shape " \x7b% x %\x7d\nz".toList false true 0 false 1 6).1 rfl rfl rfl⟩

/-- Counterexample to C6 as stated: on the CRLF-terminated line
`\x7b% x %\x7d\r\n` the emitted replacement ends with a bare LF — it is
not the original indent + `# ` + token + CRLF line. -/
theorem claim6_crlf_counterexample :
    maskStep "\x7b% x %\x7d\r\n".toList false true 0 false =
      .cont "# __J2OMIT_S_7_7b25207820257d__\n".toList 8 false ∧
    "# __J2OMIT_S_7_7b25207820257d__\n".toList ≠
      "# __J2OMIT_S_7_7b25207820257d__\r\n".toList :=
  ⟨rfl, by decide⟩

/-- Claim C1 (the round-trip property fails on the code): masking
`a \x7b% x %\x7d b` — a text with no placeholder-shaped substrings —
replaces the whole line by `# <token>`, silently dropping `a` and `b`,
and unmasking returns `\x7b% x %\x7d\n`, not the original text. -/
theorem claim1_roundtrip_failure :
    mask_text "a \x7b% x %\x7d b".toList false true true =
      .ok "# __J2OMIT_S_7_7b25207820257d__".toList ∧
    unmask_text "# __J2OMIT_S_7_7b25207820257d__".toList false =
      .ok ("\x7b% x %\x7d\n".toList, []) ∧
    "\x7b% x %\x7d\n".toList ≠ "a \x7b% x %\x7d b".toList :=
  ⟨rfl, rfl, by decide⟩

/-! ### Non-strict unmask never fails -/

theorem replHex_false_ok (k : Char) (ds hs tok : List Char) :
    ∃ p, replHex false k ds hs tok = .ok p := by
  cases hx : decode_placeholder_hex k ds hs with
  | ok t => exact ⟨(t, []), by simp [replHex, hx]⟩
  | error e => exact ⟨(tok, [tok]), by simp [replHex, hx]⟩

theorem replB26_false_ok (k : Char) (bs tok : List Char) :
    ∃ p, replB26 false k bs tok = .ok p := by
  cases hx : decode_placeholder_b26 k bs with
  | ok t => exact ⟨(t, []), by simp [replB26, hx]⟩
  | error e => exact ⟨(tok, [tok]), by simp [replB26, hx]⟩

theorem subHexAux_false_ok : ∀ (fuel : Nat) (l : List Char),
    ∃ p, subHexAux false fuel l = .ok p := by
  intro fuel
  induction fuel with
  | zero =>
    intro l
    cases l with
    | nil => exact ⟨([], []), rfl⟩
    | cons c rest => exact ⟨(c :: rest, []), rfl⟩
  | succ fuel ih =>
    intro l
    cases l with
    | nil => exact ⟨([], []), rfl⟩
    | cons c rest =>
      cases hm : matchHexTok (c :: rest) with
      | none =>
        rcases ih rest with ⟨p, hp⟩
        exact ⟨(c :: p.1, p.2), by simp [subHexAux, hm, hp]⟩
      | some kdl =>
        rcases kdl with ⟨k, ds, hs, len⟩
        rcases replHex_false_ok k ds hs ((c :: rest).take len) with ⟨q, hq⟩
        rcases ih ((c :: rest).drop len) with ⟨p, hp⟩
        exact ⟨(q.1 ++ p.1, q.2 ++ p.2), by simp [subHexAux, hm, hq, hp]⟩

theorem subB26Aux_false_ok : ∀ (fuel : Nat) (l : List Char),
    ∃ p, subB26Aux false fuel l = .ok p := by
  intro fuel
  induction fuel with
  | zero =>
    intro l
    cases l with
    | nil => exact ⟨([], []), rfl⟩
    | cons c rest => exact ⟨(c :: rest, []), rfl⟩
  | succ fuel ih =>
    intro l
    cases l with
    | nil => exact ⟨([], []), rfl⟩
    | cons c rest =>
      cases hm : matchB26Tok (c :: rest) with
      | none =>
        rcases ih rest with ⟨p, hp⟩
        exact ⟨(c :: p.1, p.2), by simp [subB26Aux, hm, hp]⟩
      | some kdl =>
        rcases kdl with ⟨k, bs, len⟩
        rcases replB26_false_ok k bs ((c :: rest).take len) with ⟨q, hq⟩
        rcases ih ((c :: rest).drop len) with ⟨p, hp⟩
        exact ⟨(q.1 ++ p.1, q.2 ++ p.2), by simp [subB26Aux, hm, hq, hp]⟩

theorem processLine_false_ok (line : List Char) :
    ∃ p, processLine false line = .ok p := by
  cases h1 : fullLineHex line with
  | some q =>
    rcases q with ⟨ind, k, ds, hs, tok⟩
    rcases replHex_false_ok k ds hs tok with ⟨r, hr⟩
    exact ⟨(ind ++ r.1 ++ ['\n'], r.2), by simp [processLine, h1, hr]⟩
  | none =>
    cases h2 : fullLineB26 line with
    | some q =>
      rcases q with ⟨ind, k, bs, tok⟩
      rcases replB26_false_ok k bs tok with ⟨r, hr⟩
      exact ⟨(ind ++ r.1 ++ ['\n'], r.2), by simp [processLine, h1, h2, hr]⟩
    | none =>
      rcases subHexAux_false_ok (line.length + 1) line with ⟨r1, hr1⟩
      rcases subB26Aux_false_ok (r1.1.length + 1) r1.1 with ⟨r2, hr2⟩
      exact ⟨(r2.1, r1.2 ++ r2.2), by simp [processLine, h1, h2, hr1, hr2]⟩

theorem unmaskLines_false_ok : ∀ (ls : List (List Char)),
    ∃ p, unmaskLines false ls = .ok p := by
  intro ls
  induction ls with
  | nil => exact ⟨([], []), rfl⟩
  | cons line rest ih =>
    rcases processLine_false_ok line with ⟨q, hq⟩
    rcases ih with ⟨r, hr⟩
    exact ⟨(q.1 ++ r.1, q.2 ++ r.2), by simp [unmaskLines, hq, hr]⟩

/-- Claim C8: non-strict unmask always succeeds on every input — a token
whose decode fails is left unchanged and only a diagnostic is recorded —
while strict mode aborts the whole call at the first decode failure,
shown on the length-mismatched token `__J2OMIT_E_2_61__`. -/
theorem claim8_unmask_nonstrict_total :
    (∀ s : List Char, ∃ p, unmask_text s false = .ok p) ∧
    unmask_text "__J2OMIT_E_2_61__".toList true =
      .error (CodecErr.lengthMismatch 2 1) ∧
    unmask_text "__J2OMIT_E_2_61__".toList false =
      .ok ("__J2OMIT_E_2_61__".toList, ["__J2OMIT_E_2_61__".toList]) :=
  ⟨fun s => unmaskLines_false_ok (pySplitLines s), rfl, rfl⟩

/-- Instance of C8's totality at a text containing a broken token. -/
theorem claim8_unmask_nonstrict_total_witness :
    ∃ p, unmask_text "x __J2E_B26:A__ y".toList false = .ok p :=
  claim8_unmask_nonstrict_total.1 "x __J2E_B26:A__ y".toList

end J2Mask
